import Mathlib

/-!
Shallow embedding of `src/earnings_dates_yf.py`.

The program resolves, for each input ticker, the next upcoming (or most
recent past) earnings date fetched from an external provider, and writes a
sorted CSV report.  Pure data manipulation is translated directly; the
effectful pieces are made explicit:

* a pandas cell is `Cell` (a string, or NaN for a missing value);
* the provider's tabular response (`t.get_earnings_dates(limit=16)`) is a
  `Frame`: column names plus rows; each row carries the result of
  `pd.to_datetime(..., errors="coerce", utc=True)` applied to its date
  (column `"Earnings Date"` or the index), as an `Option Int`
  (UTC epoch seconds, `none` = NaT), together with its remaining cells;
* the outcome of contacting the provider for one ticker is `FetchResult`:
  either a raised exception (`PyExc`, carrying `type(e).__name__` and
  `str(e)`) or an optional `Frame` (`none` models `df is None`);
* `pandas.sort_values` is modelled as a stable sort by the given key
  (`List.insertionSort`), matching the spec's "stable sort by timestamp
  only"; stability of the model matters only for tie-breaking claims and is
  called out there;
* timestamps are `Int` epoch seconds; `isoformat` renders an epoch
  (1970 onwards) the way `Timestamp.isoformat()` renders a UTC timestamp,
  and `parseIso` models `pd.to_datetime(..., errors="coerce")` on exactly
  the strings this program itself writes into `next_earnings_date`.
-/

/-- A pandas cell value: a (stringified) value, or NaN (missing). -/
inductive Cell where
  | str (s : String)
  | nan
  deriving DecidableEq

/-- Python `str(...)` of a cell, as produced by `.astype(str)`:
NaN stringifies to the literal `"nan"`. -/
def Cell.pyStr : Cell → String
  | .str s => s
  | .nan => "nan"

/-- One row of the provider's response, after the date normalisation of
lines 33-40 of the source: `dt` is the `pd.to_datetime` parse of the row's
date (from the `"Earnings Date"` column or the index), `none` = NaT;
`cells` are the row's remaining named cells. -/
structure EntryRow where
  dt : Option Int
  cells : List (String × Cell)
  deriving DecidableEq

/-- The provider's tabular response: column names and rows. -/
structure Frame where
  cols : List String
  rows : List EntryRow
  deriving DecidableEq

/-- An output row (the dict literals of `get_next_earnings_for_ticker`). -/
structure EarningsRecord where
  ticker : String
  next_earnings_date : Option String
  when : Option String
  source : String
  got_upcoming : Bool
  deriving DecidableEq

/-- A raised Python exception: `kind` models `type(e).__name__`,
`msg` models `str(e)`. -/
structure PyExc where
  kind : String
  msg : String
  deriving DecidableEq

/-- Outcome of `yf.Ticker(ticker)` + `t.get_earnings_dates(limit=16)`
for one ticker: an exception, or an optional frame (`none` = `df is None`). -/
inductive FetchResult where
  | exc (e : PyExc)
  | ok (df : Option Frame)
  deriving DecidableEq

/-! ### ISO-8601 rendering and parsing of UTC timestamps -/

/-- Two-digit zero padding. -/
def pad2 (n : Nat) : String :=
  if n < 10 then "0" ++ toString n else toString n

/-- Gregorian (year, month, day) from a day count with epoch 0000-03-01
(the standard civil-from-days algorithm); valid for the post-1970 range
this development uses. -/
def civilFromDays (z : Nat) : Nat × Nat × Nat :=
  let era := z / 146097
  let doe := z % 146097
  let yoe := (doe - doe / 1460 + doe / 36524 - doe / 146096) / 365
  let y := yoe + era * 400
  let doy := doe - (365 * yoe + yoe / 4 - yoe / 100)
  let mp := (5 * doy + 2) / 153
  let d := doy - (153 * mp + 2) / 5 + 1
  let m := if mp < 10 then mp + 3 else mp - 9
  (if m ≤ 2 then y + 1 else y, m, d)

/-- `Timestamp.isoformat()` for a UTC timestamp given as epoch seconds
(model valid for epochs from 1970 on, the range of earnings calendars):
`YYYY-MM-DDThh:mm:ss+00:00`. -/
def isoformat (t : Int) : String :=
  let s := t.toNat
  let days := s / 86400
  let rem := s % 86400
  let ymd := civilFromDays (days + 719468)
  toString ymd.1 ++ "-" ++ pad2 ymd.2.1 ++ "-" ++ pad2 ymd.2.2 ++ "T" ++
    pad2 (rem / 3600) ++ ":" ++ pad2 (rem % 3600 / 60) ++ ":" ++ pad2 (rem % 60) ++
    "+00:00"

/-- Day count since 1970-01-01 of a Gregorian date (inverse of
`civilFromDays`, post-1970 range). -/
def daysFromCivil (y m d : Nat) : Nat :=
  let y2 := if m ≤ 2 then y - 1 else y
  let era := y2 / 400
  let yoe := y2 % 400
  let mp := if 3 ≤ m then m - 3 else m + 9
  let doy := (153 * mp + 2) / 5 + d - 1
  let doe := yoe * 365 + yoe / 4 - yoe / 100 + doy
  era * 146097 + doe - 719468

/-- Split a character list on a separator (text splitting used by the
ISO parser below). -/
def splitOnChar (sep : Char) : List Char → List (List Char)
  | [] => [[]]
  | ch :: l =>
    if ch = sep then [] :: splitOnChar sep l
    else
      match splitOnChar sep l with
      | [] => [[ch]]
      | w :: ws => (ch :: w) :: ws

/-- Parse a non-empty all-digit character list as a natural number. -/
def parseNatList : List Char → Option Nat
  | [] => none
  | l =>
    l.foldl
      (fun acc ch =>
        acc.bind fun n =>
          if '0' ≤ ch ∧ ch ≤ '9' then some (n * 10 + (ch.toNat - 48)) else none)
      (some 0)

/-- `pd.to_datetime(..., errors="coerce", utc=True)` applied to an output
date string (line 82 of the source).  The strings reaching it are exactly
those `isoformat` writes, so the model parses that shape and coerces
anything else to NaT (`none`). -/
def parseIso (s : String) : Option Int :=
  match splitOnChar 'T' s.data with
  | [date, time] =>
    match splitOnChar '-' date, splitOnChar '+' time with
    | [ys, ms, ds], [hms, off] =>
      if off = "00:00".data then
        match splitOnChar ':' hms with
        | [hs, mis, ss] =>
          match parseNatList ys, parseNatList ms, parseNatList ds,
                parseNatList hs, parseNatList mis, parseNatList ss with
          | some y, some mo, some d, some h, some mi, some sec =>
            some (Int.ofNat (daysFromCivil y mo d * 86400 + h * 3600 + mi * 60 + sec))
          | _, _, _, _, _, _ => none
        | _ => none
      else none
    | _, _ => none
  | _ => none

/-! ### The per-ticker resolver (`get_next_earnings_for_ticker`) -/

/-- The fixed provenance tag of every non-error record. -/
def providerSource : String := "yfinance:get_earnings_dates"

/-- The record returned on an empty provider result (lines 31-32) and when
nothing parses (line 64); the two dict literals are identical. -/
def emptyRecord (ticker : String) : EarningsRecord :=
  { ticker := ticker, next_earnings_date := none, when := none,
    source := providerSource, got_upcoming := false }

/-- The fixed ordered candidate list for the time-of-day column (line 44). -/
def whenCandidates : List String := ["Time", "TimeOfDay", "When", "Time (ET)"]

/-- Lines 43-47: probe the candidates in order, first one present in the
frame's columns wins. -/
def firstWhenCol (cols : List String) : Option String :=
  whenCandidates.find? (fun c => cols.contains c)

/-- `str(row.get(c))`: the cell stringified; Python's `Series.get` returns
`None` for an absent key, and `str(None)` is `"None"`. -/
def rowGetStr (r : EntryRow) (c : String) : String :=
  match r.cells.lookup c with
  | some v => v.pyStr
  | none => "None"

/-- `str(row.get(when_col)) if when_col else None` (lines 53 and 60). -/
def rowWhen (whenCol : Option String) (r : EntryRow) : Option String :=
  match whenCol with
  | none => none
  | some c => some (rowGetStr r c)

/-- `df.assign(_dt=dt_col)` followed by `df.dropna(subset=["_dt"])`
(lines 39-40): the rows whose date parsed, in order, each tagged with its
parsed timestamp. -/
def datedRows (f : Frame) : List (Int × EntryRow) :=
  f.rows.filterMap (fun r => r.dt.map (fun t => (t, r)))

/-- `df[df["_dt"] >= now]` (line 50). -/
def upcomingOf (df : Frame) (now : Int) : List (Int × EntryRow) :=
  (datedRows df).filter (fun p => decide (now ≤ p.1))

/-- `df[df["_dt"] < now]` (line 57). -/
def pastOf (df : Frame) (now : Int) : List (Int × EntryRow) :=
  (datedRows df).filter (fun p => decide (p.1 < now))

/-- The sort key used by `.sort_values("_dt")`: compare parsed timestamps. -/
def dtle (a b : Int × EntryRow) : Prop := a.1 ≤ b.1

instance : DecidableRel dtle := fun a b => (inferInstance : Decidable (a.1 ≤ b.1))

instance : IsTotal (Int × EntryRow) dtle := ⟨fun a b => Int.le_total a.1 b.1⟩

instance : IsTrans (Int × EntryRow) dtle := ⟨fun _ _ _ h1 h2 => le_trans h1 h2⟩

/-- `.sort_values("_dt")` (lines 50 and 57), modelled as a stable sort on
the timestamp key. -/
def sortByDt (l : List (Int × EntryRow)) : List (Int × EntryRow) :=
  List.insertionSort dtle l

/-- Lines 23-66 of the source.  `now` is the captured
`datetime.now(timezone.utc)`; `fetch` is the outcome of contacting the
provider.  The Python `try`/`except` wraps the whole body, so a raised
exception yields the error record of line 66 — note the tag is
`"error:" ++ e.kind` (`f"error:{type(e).__name__}"`): the exception
message is not included.  The function is total: it never raises. -/
def get_next_earnings_for_ticker (ticker : String) (now : Int)
    (fetch : FetchResult) : EarningsRecord :=
  match fetch with
  | .exc e =>
    { ticker := ticker, next_earnings_date := none, when := none,
      source := "error:" ++ e.kind, got_upcoming := false }
  | .ok none => emptyRecord ticker
  | .ok (some df) =>
    if df.rows.length = 0 then emptyRecord ticker
    else
      match sortByDt (upcomingOf df now) with
      | p :: _ =>
        { ticker := ticker, next_earnings_date := some (isoformat p.1),
          when := rowWhen (firstWhenCol df.cols) p.2,
          source := providerSource, got_upcoming := true }
      | [] =>
        match (sortByDt (pastOf df now)).getLast? with
        | some p =>
          { ticker := ticker, next_earnings_date := some (isoformat p.1),
            when := rowWhen (firstWhenCol df.cols) p.2,
            source := providerSource, got_upcoming := false }
        | none => emptyRecord ticker

/-! ### The batch pipeline (`main`) -/

/-- The parsed input CSV as `pd.read_csv` delivers it: named columns of
cells (an empty CSV cell parses to NaN). -/
structure InputCsv where
  columns : List (String × List Cell)

/-- Python `str.strip()` on the ASCII whitespace occurring in CSV cells. -/
def isSpaceChar (ch : Char) : Bool :=
  ch = ' ' || ch = '\t' || ch = '\n' || ch = '\r'

/-- Drop leading whitespace characters. -/
def dropLeadingSpace : List Char → List Char
  | [] => []
  | ch :: l => if isSpaceChar ch then dropLeadingSpace l else ch :: l

/-- `str.strip()`: drop whitespace at both ends. -/
def pyStrip (s : String) : String :=
  ⟨dropLeadingSpace ((dropLeadingSpace s.data.reverse).reverse)⟩

/-- Line 79's comprehension source:
`tickers["ticker"].astype(str).str.strip()` filtered by truthiness
(`if t`: non-empty string).  When the `ticker` column is absent `main`
exits before this point; the `[]` branch is never reached there. -/
def tickersOf (c : InputCsv) : List String :=
  match c.columns.lookup "ticker" with
  | none => []
  | some cells =>
    ((cells.map (fun v => v.pyStr)).map pyStrip).filter (fun t => t ≠ "")

/-- Line 79: one resolver call per surviving ticker, in order.  `env` is
the provider's behaviour per ticker symbol. -/
def runBatch (env : String → FetchResult) (now : Int) (ts : List String) :
    List EarningsRecord :=
  ts.map (fun t => get_next_earnings_for_ticker t now (env t))

/-- The sort key of line 82: `pd.to_datetime(next_earnings_date,
errors="coerce")`; an absent date is NaT. -/
def sortKey (r : EarningsRecord) : Option Int :=
  r.next_earnings_date.bind parseIso

/-- The row order of line 83: `sort_values(["_sort", "ticker"],
na_position="last")` — ascending by parsed date with NaT last, ties by
ticker (plain case-sensitive string order). -/
def outLE (a b : EarningsRecord) : Bool :=
  match sortKey a, sortKey b with
  | some x, some y => decide (x < y) || (decide (x = y) && decide (a.ticker ≤ b.ticker))
  | some _, none => true
  | none, some _ => false
  | none, none => decide (a.ticker ≤ b.ticker)

/-- Line 83's sort, modelled as a stable sort on the (date, ticker) key. -/
def sortOut (l : List EarningsRecord) : List EarningsRecord :=
  List.insertionSort (fun a b => outLE a b = true) l

/-- Observable outcome of `main` (after a successful `pd.read_csv`):
either the early `sys.exit(2)` with the message on stderr and no output
file written, or the sorted rows written to the output CSV. -/
inductive MainOutcome where
  | exitNoTicker
  | wrote (rows : List EarningsRecord)
  deriving DecidableEq

/-- Lines 74-85: check for the `ticker` column, resolve each surviving
ticker, sort, write.  `env` is the provider's behaviour; `now` the clock. -/
def mainRun (env : String → FetchResult) (now : Int) (c : InputCsv) :
    MainOutcome :=
  if (c.columns.lookup "ticker").isNone then .exitNoTicker
  else .wrote (sortOut (runBatch env now (tickersOf c)))

/-! ### Helper lemmas about the timestamp sort -/

/-- The head of the sorted list is a timestamp-minimal element of the
input. -/
theorem sortByDt_head_min {l : List (Int × EntryRow)} {p : Int × EntryRow}
    {rest : List (Int × EntryRow)} (h : sortByDt l = p :: rest) :
    p ∈ l ∧ ∀ q ∈ l, p.1 ≤ q.1 := by
  have hperm := List.perm_insertionSort dtle l
  constructor
  · exact hperm.mem_iff.mp (by rw [sortByDt] at h; rw [h]; exact List.mem_cons_self _ _)
  · intro q hq
    have hq' : q ∈ List.insertionSort dtle l := (List.mem_insertionSort dtle).mpr hq
    rw [← sortByDt, h] at hq'
    rcases List.mem_cons.mp hq' with hqe | hq''
    · exact le_of_eq (congrArg Prod.fst hqe.symm)
    · have hs := List.sorted_insertionSort dtle l
      rw [← sortByDt, h] at hs
      exact List.rel_of_sorted_cons hs q hq''

/-- In a list sorted by `r`, every element is `r`-below the last one. -/
theorem pairwise_rel_getLast {α : Type} {r : α → α → Prop} :
    ∀ (l : List α), l.Pairwise r → ∀ p, l.getLast? = some p →
      ∀ q ∈ l, q = p ∨ r q p := by
  intro l
  induction l with
  | nil => intro _ p h; simp at h
  | cons a t ih =>
    intro hp p hlast q hq
    cases t with
    | nil =>
      simp only [List.getLast?_singleton, Option.some.injEq] at hlast
      rcases List.mem_singleton.mp hq with rfl
      exact Or.inl hlast
    | cons b t' =>
      rw [List.getLast?_cons_cons] at hlast
      rcases List.mem_cons.mp hq with rfl | hq'
      · right
        exact (List.pairwise_cons.mp hp).1 p (List.mem_of_getLast?_eq_some hlast)
      · exact ih (List.pairwise_cons.mp hp).2 p hlast q hq'

/-- The last element of the sorted list is a timestamp-maximal element of
the input. -/
theorem sortByDt_getLast_max {l : List (Int × EntryRow)} {p : Int × EntryRow}
    (h : (sortByDt l).getLast? = some p) :
    p ∈ l ∧ ∀ q ∈ l, q.1 ≤ p.1 := by
  have hperm := List.perm_insertionSort dtle l
  have hs := List.sorted_insertionSort dtle l
  rw [← sortByDt] at hperm hs
  constructor
  · exact hperm.mem_iff.mp (List.mem_of_getLast?_eq_some h)
  · intro q hq
    have hq' : q ∈ sortByDt l := hperm.mem_iff.mpr hq
    rcases pairwise_rel_getLast _ hs p h q hq' with rfl | hr
    · exact le_refl _
    · exact hr

/-- Stability, head form: if `a` is the first element of `l` attaining the
minimal timestamp (everything before it is strictly larger, everything in
`l` is at least it), the stable sort puts `a` first. -/
theorem sortByDt_head_stable :
    ∀ (pre : List (Int × EntryRow)) (a : Int × EntryRow)
      (post : List (Int × EntryRow)),
      (∀ b ∈ pre, a.1 < b.1) → (∀ b ∈ pre ++ a :: post, a.1 ≤ b.1) →
      ∃ rest, sortByDt (pre ++ a :: post) = a :: rest := by
  intro pre
  induction pre with
  | nil =>
    intro a post _ hmin
    rw [List.nil_append] at hmin ⊢
    show ∃ rest, List.insertionSort dtle (a :: post) = a :: rest
    rw [List.insertionSort]
    cases hs : List.insertionSort dtle post with
    | nil => exact ⟨[], rfl⟩
    | cons b s' =>
      have hb : b ∈ post :=
        (List.mem_insertionSort dtle).mp (by rw [hs]; exact List.mem_cons_self _ _)
      have hab : dtle a b := hmin b (List.mem_cons_of_mem a hb)
      refine ⟨b :: s', ?_⟩
      rw [List.orderedInsert, if_pos hab]
  | cons c pre' ih =>
    intro a post hpre hmin
    obtain ⟨rest, hr⟩ := ih a post
      (fun b hb => hpre b (List.mem_cons_of_mem c hb))
      (fun b hb => hmin b (List.mem_cons_of_mem c hb))
    have hca : ¬ dtle c a := by
      have := hpre c (List.mem_cons_self c pre')
      show ¬ (c.1 ≤ a.1)
      omega
    rw [sortByDt] at hr
    refine ⟨List.orderedInsert dtle c rest, ?_⟩
    show List.insertionSort dtle (c :: (pre' ++ a :: post)) = _
    rw [List.insertionSort, hr, List.orderedInsert, if_neg hca]

/-- If the inserted element is above everything in the list, ordered
insertion appends it at the end. -/
theorem orderedInsert_append_of_gt :
    ∀ (s : List (Int × EntryRow)) (a : Int × EntryRow),
      (∀ b ∈ s, ¬ dtle a b) → List.orderedInsert dtle a s = s ++ [a] := by
  intro s
  induction s with
  | nil => intro a _; rfl
  | cons b s' ih =>
    intro a h
    rw [List.orderedInsert, if_neg (h b (List.mem_cons_self b s')),
      ih a (fun q hq => h q (List.mem_cons_of_mem b hq)), List.cons_append]

/-- Ordered insertion of an element that is at most the current last
element keeps that last element last. -/
theorem orderedInsert_getLast_of_le :
    ∀ (s : List (Int × EntryRow)) (a p : Int × EntryRow),
      s.getLast? = some p → dtle a p →
      (List.orderedInsert dtle a s).getLast? = some p := by
  intro s
  induction s with
  | nil => intro a p h; simp at h
  | cons b s' ih =>
    intro a p hlast hap
    cases s' with
    | nil =>
      simp only [List.getLast?_singleton, Option.some.injEq] at hlast
      rw [hlast]
      rw [List.orderedInsert, if_pos hap]
      rfl
    | cons b' s'' =>
      rw [List.getLast?_cons_cons] at hlast
      rw [List.orderedInsert]
      by_cases hab : dtle a b
      · rw [if_pos hab, List.getLast?_cons_cons, List.getLast?_cons_cons]
        exact hlast
      · rw [if_neg hab]
        have hrec := ih a p hlast hap
        cases ho : List.orderedInsert dtle a (b' :: s'') with
        | nil => rw [ho] at hrec; simp at hrec
        | cons x xs =>
          rw [List.getLast?_cons_cons, ← ho]
          exact hrec

/-- Stability, last form: if `a` is the last element of `l` attaining the
maximal timestamp (everything after it is strictly smaller, everything in
`l` is at most it), the stable sort puts `a` last. -/
theorem sortByDt_getLast_stable :
    ∀ (pre : List (Int × EntryRow)) (a : Int × EntryRow)
      (post : List (Int × EntryRow)),
      (∀ b ∈ post, b.1 < a.1) → (∀ b ∈ pre ++ a :: post, b.1 ≤ a.1) →
      (sortByDt (pre ++ a :: post)).getLast? = some a := by
  intro pre
  induction pre with
  | nil =>
    intro a post hpost _
    rw [List.nil_append]
    show (List.insertionSort dtle (a :: post)).getLast? = some a
    rw [List.insertionSort]
    rw [orderedInsert_append_of_gt _ a (fun b hb => by
      have hb' : b ∈ post := (List.mem_insertionSort dtle).mp hb
      have := hpost b hb'
      show ¬ (a.1 ≤ b.1)
      omega)]
    exact List.getLast?_concat _
  | cons c pre' ih =>
    intro a post hpost hmax
    have hlast := ih a post hpost (fun b hb => hmax b (List.mem_cons_of_mem c hb))
    have hca : dtle c a := hmax c (List.mem_cons_self c _)
    show (List.insertionSort dtle (c :: (pre' ++ a :: post))).getLast? = some a
    rw [List.insertionSort]
    exact orderedInsert_getLast_of_le _ c a hlast hca

/-- A frame with a dated row has rows. -/
theorem rows_length_ne_zero_of_datedRows {df : Frame}
    (h : datedRows df ≠ []) : ¬ df.rows.length = 0 := by
  intro h0
  apply h
  have : df.rows = [] := List.length_eq_zero.mp h0
  rw [datedRows, this]
  rfl

/-- Upcoming rows are dated rows. -/
theorem upcomingOf_subset {df : Frame} {now : Int} :
    ∀ p ∈ upcomingOf df now, p ∈ datedRows df := by
  intro p hp
  exact List.mem_of_mem_filter hp

/-- Past rows are dated rows. -/
theorem pastOf_subset {df : Frame} {now : Int} :
    ∀ p ∈ pastOf df now, p ∈ datedRows df := by
  intro p hp
  exact List.mem_of_mem_filter hp

/-- The resolver copies the ticker symbol into the record unchanged. -/
theorem resolver_ticker (t : String) (now : Int) (f : FetchResult) :
    (get_next_earnings_for_ticker t now f).ticker = t := by
  cases f with
  | exc e => rfl
  | ok odf =>
    cases odf with
    | none => rfl
    | some df =>
      rw [get_next_earnings_for_ticker]
      by_cases h0 : df.rows.length = 0
      · rw [if_pos h0]; rfl
      · rw [if_neg h0]
        cases hu : sortByDt (upcomingOf df now) with
        | cons p rest => rfl
        | nil =>
          cases hp : (sortByDt (pastOf df now)).getLast? with
          | some p => rfl
          | none => rfl

/-- The output row order is total. -/
theorem outLE_total (a b : EarningsRecord) : outLE a b = true ∨ outLE b a = true := by
  cases ka : sortKey a <;> cases kb : sortKey b <;>
    simp only [outLE, ka, kb, Bool.or_eq_true, Bool.and_eq_true, decide_eq_true_eq,
      Bool.false_eq_true, eq_self_iff_true, false_or, or_false, false_and, and_false,
      or_true, true_or]
  · exact le_total a.ticker b.ticker
  · rename_i x y
    rcases lt_trichotomy x y with h | h | h
    · exact Or.inl (Or.inl h)
    · rcases le_total a.ticker b.ticker with ht | ht
      · exact Or.inl (Or.inr ⟨h, ht⟩)
      · exact Or.inr (Or.inr ⟨h.symm, ht⟩)
    · exact Or.inr (Or.inl h)

/-- The output row order is transitive. -/
theorem outLE_trans (a b c : EarningsRecord) (h1 : outLE a b = true)
    (h2 : outLE b c = true) : outLE a c = true := by
  cases ka : sortKey a <;> cases kb : sortKey b <;> cases kc : sortKey c <;>
    simp only [outLE, ka, kb, kc, Bool.or_eq_true, Bool.and_eq_true, decide_eq_true_eq,
      Bool.false_eq_true, eq_self_iff_true, false_or, or_false, false_and, and_false,
      or_true, true_or] at h1 h2 ⊢
  · exact le_trans h1 h2
  · rename_i x y z
    rcases h1 with h1 | ⟨he1, ht1⟩
    · rcases h2 with h2 | ⟨he2, ht2⟩
      · exact Or.inl (lt_trans h1 h2)
      · exact Or.inl (he2 ▸ h1)
    · rcases h2 with h2 | ⟨he2, ht2⟩
      · exact Or.inl (he1 ▸ h2)
      · exact Or.inr ⟨he1.trans he2, le_trans ht1 ht2⟩

instance : IsTotal EarningsRecord (fun a b => outLE a b = true) := ⟨outLE_total⟩

instance : IsTrans EarningsRecord (fun a b => outLE a b = true) :=
  ⟨fun a b c => outLE_trans a b c⟩

/-- `"ticker" not in tickers.columns` makes the lookup fail. -/
theorem lookup_eq_none_of_ne (key : String) :
    ∀ (l : List (String × List Cell)), (∀ p ∈ l, p.1 ≠ key) →
      l.lookup key = none := by
  intro l
  induction l with
  | nil => intro _; rfl
  | cons p t ih =>
    intro h
    obtain ⟨k, v⟩ := p
    rw [List.lookup_cons]
    have hk : (key == k) = false := by
      simp only [beq_eq_false_iff_ne, ne_eq]
      exact fun he => h (k, v) (List.mem_cons_self _ t) he.symm
    rw [hk]
    exact ih (fun q hq => h q (List.mem_cons_of_mem _ hq))

/-! ### The claims -/

/-- Claim C1, amended: for every ticker, `get_next_earnings_for_ticker`
never raises (it is a total function); any exception from the provider
call is converted to a record with `next_earnings_date` absent,
`got_upcoming = false`, and `source = "error:" ++ kind` embedding the
exception kind only — the exception message is not included. -/
theorem error_record_shape (ticker : String) (now : Int) (e : PyExc) :
    get_next_earnings_for_ticker ticker now (.exc e) =
      { ticker := ticker, next_earnings_date := none, when := none,
        source := "error:" ++ e.kind, got_upcoming := false } := rfl

/-- Claim C1, counterexample: for the exception `ValueError("boom")` the
record's source is exactly `"error:ValueError"`; it is not of the form
`error:<kind>:<message>` — no tail at all follows `"error:ValueError:"`,
so the message is not embedded. -/
theorem error_record_no_message :
    (get_next_earnings_for_ticker "BAD" 0
        (.exc ⟨"ValueError", "boom"⟩)).source = "error:ValueError" ∧
    ¬ ∃ msgTail : String,
        (get_next_earnings_for_ticker "BAD" 0
            (.exc ⟨"ValueError", "boom"⟩)).source
          = "error:" ++ "ValueError" ++ ":" ++ msgTail := by
  refine ⟨rfl, ?_⟩
  rintro ⟨msgTail, hr⟩
  have hsrc : (get_next_earnings_for_ticker "BAD" 0
      (.exc ⟨"ValueError", "boom"⟩)).source = "error:ValueError" := rfl
  rw [hsrc] at hr
  have hl := congrArg String.length hr
  rw [String.length_append, String.length_append, String.length_append] at hl
  have h1 : ("error:ValueError" : String).length = 16 := by decide
  have h2 : ("error:" : String).length = 6 := by decide
  have h3 : ("ValueError" : String).length = 10 := by decide
  have h4 : (":" : String).length = 1 := by decide
  rw [h1, h2, h3, h4] at hl
  omega

/-- Claim C2: if the parsed input CSV has no column named `ticker`, the
run exits with status 2 (stderr message, nothing written) — for every
provider behaviour `env`, so no resolver call can influence or occur in
the outcome. -/
theorem missing_ticker_column_exits (env : String → FetchResult) (now : Int)
    (c : InputCsv) (h : ∀ p ∈ c.columns, p.1 ≠ "ticker") :
    mainRun env now c = MainOutcome.exitNoTicker := by
  rw [mainRun, lookup_eq_none_of_ne "ticker" c.columns h]
  rfl

/-- Claim C2, witness: a CSV whose only column is `symbol`. -/
theorem missing_ticker_column_exits_witness :
    mainRun (fun _ => FetchResult.ok none) 0
      ⟨[("symbol", [Cell.str "AAPL"])]⟩ = MainOutcome.exitNoTicker :=
  missing_ticker_column_exits _ 0 _ (by decide)

/-- Claim C7, amended: a `None` or empty provider result yields a record
with `next_earnings_date` absent and `got_upcoming = false`, whose
`source` is the fixed provenance tag `"yfinance:get_earnings_dates"` —
the same tag successful records carry, with no empty-result marker. -/
theorem empty_result_record (ticker : String) (now : Int) (cols : List String) :
    get_next_earnings_for_ticker ticker now (.ok none) =
      { ticker := ticker, next_earnings_date := none, when := none,
        source := providerSource, got_upcoming := false } ∧
    get_next_earnings_for_ticker ticker now (.ok (some ⟨cols, []⟩)) =
      { ticker := ticker, next_earnings_date := none, when := none,
        source := providerSource, got_upcoming := false } := ⟨rfl, rfl⟩

/-- Claim C7, counterexample: the record produced for an empty provider
result carries source `"yfinance:get_earnings_dates"`, identical to the
source of a successfully resolved record, so the `source` field does not
distinguish the empty-result outcome. -/
theorem empty_result_source_not_distinct :
    (get_next_earnings_for_ticker "EMPTY" 0 (.ok none)).source
        = providerSource ∧
    (get_next_earnings_for_ticker "EMPTY" 0 (.ok none)).next_earnings_date
        = none ∧
    (get_next_earnings_for_ticker "EMPTY" 0 (.ok none)).got_upcoming
        = false ∧
    (get_next_earnings_for_ticker "GOOD" 0
        (.ok (some ⟨[], [⟨some 5, []⟩]⟩))).got_upcoming = true ∧
    (get_next_earnings_for_ticker "GOOD" 0
        (.ok (some ⟨[], [⟨some 5, []⟩]⟩))).source = providerSource := by
  refine ⟨rfl, rfl, rfl, by decide, by decide⟩

/-- Claim C10: a CSV row with a missing `ticker` cell (NaN) is not
skipped: `astype(str)` turns NaN into the literal string `"nan"`, which
survives stripping and produces an output row with ticker `"nan"`. -/
theorem missing_cell_becomes_nan :
    mainRun (fun _ => FetchResult.ok none) 0 ⟨[("ticker", [Cell.nan])]⟩ =
      MainOutcome.wrote
        [{ ticker := "nan", next_earnings_date := none, when := none,
           source := providerSource, got_upcoming := false }] ∧
    Cell.pyStr Cell.nan = "nan" ∧ pyStrip "nan" = "nan" :=
  ⟨by decide, rfl, rfl⟩

/-- Claim C3: when the `ticker` column exists, the output is wrote, and
contains exactly one record per input entry that is non-empty after
stripping — a permutation (the final sort) of the resolver image of the
stripped-and-filtered entry list, with record tickers matching those
entries one-to-one (duplicates preserved); entries empty after stripping
are dropped before the resolver runs and appear nowhere. -/
theorem one_record_per_ticker (env : String → FetchResult) (now : Int)
    (c : InputCsv) (cells : List Cell)
    (h : c.columns.lookup "ticker" = some cells) :
    ∃ out, mainRun env now c = MainOutcome.wrote out ∧
      out.Perm ((tickersOf c).map
        (fun t => get_next_earnings_for_ticker t now (env t))) ∧
      tickersOf c =
        ((cells.map (fun v => v.pyStr)).map pyStrip).filter (fun t => t ≠ "") ∧
      (out.map (fun r => r.ticker)).Perm
        (((cells.map (fun v => v.pyStr)).map pyStrip).filter (fun t => t ≠ "")) := by
  have h3 : tickersOf c =
      ((cells.map (fun v => v.pyStr)).map pyStrip).filter (fun t => t ≠ "") := by
    rw [tickersOf, h]
  refine ⟨sortOut (runBatch env now (tickersOf c)), ?_, ?_, h3, ?_⟩
  · rw [mainRun, h]
    rfl
  · exact List.perm_insertionSort _ _
  · have hperm : (sortOut (runBatch env now (tickersOf c))).map (fun r => r.ticker)
        |>.Perm ((runBatch env now (tickersOf c)).map (fun r => r.ticker)) :=
      (List.perm_insertionSort _ _).map _
    have hmap : (runBatch env now (tickersOf c)).map (fun r => r.ticker)
        = tickersOf c := by
      rw [runBatch, List.map_map]
      have hco : ((fun r => r.ticker) ∘
          fun t => get_next_earnings_for_ticker t now (env t)) = fun t => t := by
        funext t
        exact resolver_ticker t now (env t)
      rw [hco]
      simp
    rw [← h3]
    rw [hmap] at hperm
    exact hperm

/-- Claim C3, witness: an input with a paddable ticker, a blank entry and
a duplicate. -/
theorem one_record_per_ticker_witness :
    ∃ out, mainRun (fun _ => FetchResult.ok none) 0
        ⟨[("ticker", [Cell.str " AAPL ", Cell.str "  ", Cell.str "MSFT",
                      Cell.str "AAPL"])]⟩ = MainOutcome.wrote out ∧
      out.Perm ((tickersOf ⟨[("ticker", [Cell.str " AAPL ", Cell.str "  ",
            Cell.str "MSFT", Cell.str "AAPL"])]⟩).map
        (fun t => get_next_earnings_for_ticker t 0 (FetchResult.ok none))) ∧
      tickersOf ⟨[("ticker", [Cell.str " AAPL ", Cell.str "  ", Cell.str "MSFT",
            Cell.str "AAPL"])]⟩ =
        (([Cell.str " AAPL ", Cell.str "  ", Cell.str "MSFT",
           Cell.str "AAPL"].map (fun v => v.pyStr)).map pyStrip).filter
          (fun t => t ≠ "") ∧
      (out.map (fun r => r.ticker)).Perm
        ((([Cell.str " AAPL ", Cell.str "  ", Cell.str "MSFT",
            Cell.str "AAPL"].map (fun v => v.pyStr)).map pyStrip).filter
          (fun t => t ≠ "")) :=
  one_record_per_ticker (fun _ => FetchResult.ok none) 0 _ _ (by decide)

/-- Claim C5: an entry whose parsed timestamp is exactly the captured
`now` is classified upcoming: it lies in the `>= now` partition, not in
the strictly-before partition, and its presence forces
`got_upcoming = true`. -/
theorem boundary_inclusive_upcoming (df : Frame) (now : Int) (r : EntryRow)
    (h : (now, r) ∈ datedRows df) :
    (now, r) ∈ upcomingOf df now ∧ (now, r) ∉ pastOf df now ∧
    ∀ ticker,
      (get_next_earnings_for_ticker ticker now (.ok (some df))).got_upcoming
        = true := by
  have hup : (now, r) ∈ upcomingOf df now := by
    rw [upcomingOf]
    exact List.mem_filter.mpr ⟨h, by simp⟩
  refine ⟨hup, ?_, ?_⟩
  · intro hpa
    have hlt := (List.mem_filter.mp hpa).2
    simp at hlt
  · intro ticker
    have hne : datedRows df ≠ [] := fun h0 => by
      rw [h0] at h
      exact List.not_mem_nil _ h
    have h0 := rows_length_ne_zero_of_datedRows hne
    simp only [get_next_earnings_for_ticker]
    rw [if_neg h0]
    cases hs : sortByDt (upcomingOf df now) with
    | nil =>
      exfalso
      have hmem : (now, r) ∈ sortByDt (upcomingOf df now) :=
        (List.mem_insertionSort dtle).mpr hup
      rw [hs] at hmem
      exact List.not_mem_nil _ hmem
    | cons p rest => rfl

/-- Claim C5, witness: a frame whose single entry is dated exactly `now`. -/
theorem boundary_inclusive_upcoming_witness :
    (42, (⟨some 42, []⟩ : EntryRow)) ∈ upcomingOf ⟨[], [⟨some 42, []⟩]⟩ 42 ∧
    (42, (⟨some 42, []⟩ : EntryRow)) ∉ pastOf ⟨[], [⟨some 42, []⟩]⟩ 42 ∧
    ∀ ticker,
      (get_next_earnings_for_ticker ticker 42
        (.ok (some ⟨[], [⟨some 42, []⟩]⟩))).got_upcoming = true :=
  boundary_inclusive_upcoming ⟨[], [⟨some 42, []⟩]⟩ 42 ⟨some 42, []⟩ (by decide)

/-- Claim C8: the optional time-of-day field is detected by probing the
fixed ordered list `["Time", "TimeOfDay", "When", "Time (ET)"]`: the probe
fails exactly when no candidate is a column; a successful probe returns a
present candidate all of whose predecessors in the list are absent (first
match wins); and when no candidate is present the emitted `when` value is
absent whatever the rows contain. -/
theorem when_field_probe (df : Frame) :
    (firstWhenCol df.cols = none ↔ ∀ c ∈ whenCandidates, c ∉ df.cols) ∧
    (∀ c, firstWhenCol df.cols = some c →
      c ∈ df.cols ∧ ∃ pre post, whenCandidates = pre ++ c :: post ∧
        ∀ c' ∈ pre, c' ∉ df.cols) ∧
    (firstWhenCol df.cols = none → ∀ ticker now,
      (get_next_earnings_for_ticker ticker now (.ok (some df))).when = none) := by
  refine ⟨?_, ?_, ?_⟩
  · rw [firstWhenCol, List.find?_eq_none]
    constructor
    · intro h c hc hmem
      exact h c hc (List.elem_iff.mpr hmem)
    · intro h c hc hcon
      exact h c hc (List.elem_iff.mp hcon)
  · intro c hc
    rw [firstWhenCol, List.find?_eq_some] at hc
    obtain ⟨hpc, pre, post, hsplit, hpre⟩ := hc
    refine ⟨List.elem_iff.mp hpc, pre, post, hsplit, ?_⟩
    intro c' hc' hmem
    have hnc := hpre c' hc'
    have hcon : df.cols.contains c' = true := List.elem_iff.mpr hmem
    rw [hcon] at hnc
    exact absurd hnc (by simp)
  · intro hnone ticker now
    simp only [get_next_earnings_for_ticker]
    by_cases h0 : df.rows.length = 0
    · rw [if_pos h0]; rfl
    · rw [if_neg h0]
      cases hs : sortByDt (upcomingOf df now) with
      | cons p rest =>
        show (rowWhen (firstWhenCol df.cols) p.2) = none
        rw [hnone]
        rfl
      | nil =>
        cases hp : (sortByDt (pastOf df now)).getLast? with
        | some p =>
          show (rowWhen (firstWhenCol df.cols) p.2) = none
          rw [hnone]
          rfl
        | none => rfl

/-- Claim C8, witness: a frame without any time-of-day candidate column
emits an absent `when`. -/
theorem when_field_probe_witness :
    (get_next_earnings_for_ticker "T" 0
      (.ok (some ⟨["Foo"], [⟨some 3, []⟩]⟩))).when = none :=
  (when_field_probe ⟨["Foo"], [⟨some 3, []⟩]⟩).2.2 (by decide) "T" 0

/-- Claim C4: with parsed dates present, if any entry is at or after `now`
the resolver returns `got_upcoming = true` and renders the timestamp of a
minimal upcoming entry; otherwise, if any entry is strictly before `now`,
it returns `got_upcoming = false` and renders the timestamp of a maximal
past entry; in both cases `next_earnings_date` is the selected timestamp
rendered by `isoformat`. -/
theorem selection_extremum (ticker : String) (now : Int) (df : Frame)
    (hne : ¬ df.rows.length = 0) :
    (upcomingOf df now ≠ [] →
      ∃ p ∈ upcomingOf df now, (∀ q ∈ upcomingOf df now, p.1 ≤ q.1) ∧
        get_next_earnings_for_ticker ticker now (.ok (some df)) =
          { ticker := ticker, next_earnings_date := some (isoformat p.1),
            when := rowWhen (firstWhenCol df.cols) p.2,
            source := providerSource, got_upcoming := true }) ∧
    (upcomingOf df now = [] → pastOf df now ≠ [] →
      ∃ p ∈ pastOf df now, (∀ q ∈ pastOf df now, q.1 ≤ p.1) ∧
        get_next_earnings_for_ticker ticker now (.ok (some df)) =
          { ticker := ticker, next_earnings_date := some (isoformat p.1),
            when := rowWhen (firstWhenCol df.cols) p.2,
            source := providerSource, got_upcoming := false }) := by
  constructor
  · intro hu
    cases hs : sortByDt (upcomingOf df now) with
    | nil =>
      exfalso
      have hlen := congrArg List.length hs
      rw [sortByDt, List.length_insertionSort] at hlen
      exact hu (List.length_eq_zero.mp hlen)
    | cons p rest =>
      obtain ⟨hmem, hmin⟩ := sortByDt_head_min hs
      refine ⟨p, hmem, hmin, ?_⟩
      simp only [get_next_earnings_for_ticker]
      rw [if_neg hne, hs]
  · intro hu hp
    cases hl : (sortByDt (pastOf df now)).getLast? with
    | none =>
      exfalso
      have hnil := List.getLast?_eq_none_iff.mp hl
      have hlen := congrArg List.length hnil
      rw [sortByDt, List.length_insertionSort] at hlen
      exact hp (List.length_eq_zero.mp hlen)
    | some p =>
      obtain ⟨hmem, hmax⟩ := sortByDt_getLast_max hl
      refine ⟨p, hmem, hmax, ?_⟩
      simp only [get_next_earnings_for_ticker]
      rw [if_neg hne]
      have hnilu : sortByDt (upcomingOf df now) = [] := by
        rw [sortByDt, hu]
        rfl
      rw [hnilu, hl]

/-- Claim C4, witness: two upcoming entries; the earlier one (timestamp
10) is selected with `got_upcoming = true`. -/
theorem selection_extremum_witness :
    ∃ p ∈ upcomingOf ⟨[], [⟨some 30, []⟩, ⟨some 10, []⟩]⟩ 5,
      (∀ q ∈ upcomingOf ⟨[], [⟨some 30, []⟩, ⟨some 10, []⟩]⟩ 5, p.1 ≤ q.1) ∧
      get_next_earnings_for_ticker "T" 5
          (.ok (some ⟨[], [⟨some 30, []⟩, ⟨some 10, []⟩]⟩)) =
        { ticker := "T", next_earnings_date := some (isoformat p.1),
          when := rowWhen (firstWhenCol (Frame.mk [] [⟨some 30, []⟩,
            ⟨some 10, []⟩]).cols) p.2,
          source := providerSource, got_upcoming := true } :=
  (selection_extremum "T" 5 ⟨[], [⟨some 30, []⟩, ⟨some 10, []⟩]⟩
    (by decide)).1 (by decide)

/-- Claim C9, counterexample: two past entries share timestamp 50; the
first in provider order carries time-of-day "AMC", the second "BMO".  The
past fallback takes the LAST row of the timestamp-sorted frame
(`past.iloc[-1]`), so the emitted record carries "BMO" — not the "AMC" of
the entry that comes first in the provider's returned order.  The claim
that the selected entry is always the first in provider order is false. -/
theorem tie_break_counterexample :
    (get_next_earnings_for_ticker "X" 100
        (.ok (some ⟨["When"],
          [⟨some 50, [("When", Cell.str "AMC")]⟩,
           ⟨some 50, [("When", Cell.str "BMO")]⟩]⟩))).when = some "BMO" ∧
    upcomingOf ⟨["When"],
        [⟨some 50, [("When", Cell.str "AMC")]⟩,
         ⟨some 50, [("When", Cell.str "BMO")]⟩]⟩ 100 = [] ∧
    pastOf ⟨["When"],
        [⟨some 50, [("When", Cell.str "AMC")]⟩,
         ⟨some 50, [("When", Cell.str "BMO")]⟩]⟩ 100 =
      [(50, ⟨some 50, [("When", Cell.str "AMC")]⟩),
       (50, ⟨some 50, [("When", Cell.str "BMO")]⟩)] ∧
    rowWhen (firstWhenCol ["When"])
        (⟨some 50, [("When", Cell.str "AMC")]⟩ : EntryRow) = some "AMC" ∧
    (some "BMO" : Option String) ≠ some "AMC" := by
  decide

/-- Claim C9, amended: among entries sharing the selected timestamp, the
upcoming branch selects the FIRST entry in provider order (head of the
stable sort), while the past fallback selects the LAST entry in provider
order (`iloc[-1]` of the stable sort). -/
theorem tie_break_provider_order (ticker : String) (now : Int) (df : Frame)
    (pre post : List (Int × EntryRow)) (a : Int × EntryRow) :
    (upcomingOf df now = pre ++ a :: post →
      (∀ b ∈ pre, a.1 < b.1) → (∀ b ∈ upcomingOf df now, a.1 ≤ b.1) →
      get_next_earnings_for_ticker ticker now (.ok (some df)) =
        { ticker := ticker, next_earnings_date := some (isoformat a.1),
          when := rowWhen (firstWhenCol df.cols) a.2,
          source := providerSource, got_upcoming := true }) ∧
    (upcomingOf df now = [] → pastOf df now = pre ++ a :: post →
      (∀ b ∈ post, b.1 < a.1) → (∀ b ∈ pastOf df now, b.1 ≤ a.1) →
      get_next_earnings_for_ticker ticker now (.ok (some df)) =
        { ticker := ticker, next_earnings_date := some (isoformat a.1),
          when := rowWhen (firstWhenCol df.cols) a.2,
          source := providerSource, got_upcoming := false }) := by
  constructor
  · intro hu hpre hmin
    have hamem : a ∈ upcomingOf df now := by
      rw [hu]
      exact List.mem_append_right pre (List.mem_cons_self a post)
    have hne : ¬ df.rows.length = 0 :=
      rows_length_ne_zero_of_datedRows (fun h0 => by
        have := upcomingOf_subset a hamem
        rw [h0] at this
        exact List.not_mem_nil _ this)
    obtain ⟨rest, hr⟩ := sortByDt_head_stable pre a post hpre
      (fun b hb => hmin b (by rw [hu]; exact hb))
    simp only [get_next_earnings_for_ticker]
    rw [if_neg hne, hu, hr]
  · intro hu hp hpost hmax
    have hamem : a ∈ pastOf df now := by
      rw [hp]
      exact List.mem_append_right pre (List.mem_cons_self a post)
    have hne : ¬ df.rows.length = 0 :=
      rows_length_ne_zero_of_datedRows (fun h0 => by
        have := pastOf_subset a hamem
        rw [h0] at this
        exact List.not_mem_nil _ this)
    have hlast := sortByDt_getLast_stable pre a post hpost
      (fun b hb => hmax b (by rw [hp]; exact hb))
    have hnilu : sortByDt (upcomingOf df now) = [] := by
      rw [sortByDt, hu]
      rfl
    simp only [get_next_earnings_for_ticker]
    rw [if_neg hne, hnilu, hp, hlast]

/-- Claim C9 (amended), witness: the tied-past frame of the
counterexample input, decomposed with the "BMO" entry as the last maximal
one; the resolver indeed returns it. -/
theorem tie_break_provider_order_witness :
    get_next_earnings_for_ticker "X" 100
        (.ok (some ⟨["When"],
          [⟨some 50, [("When", Cell.str "AMC")]⟩,
           ⟨some 50, [("When", Cell.str "BMO")]⟩]⟩)) =
      { ticker := "X", next_earnings_date := some (isoformat 50),
        when := rowWhen (firstWhenCol ["When"])
          ⟨some 50, [("When", Cell.str "BMO")]⟩,
        source := providerSource, got_upcoming := false } :=
  (tie_break_provider_order "X" 100
      ⟨["When"], [⟨some 50, [("When", Cell.str "AMC")]⟩,
                  ⟨some 50, [("When", Cell.str "BMO")]⟩]⟩
      [(50, ⟨some 50, [("When", Cell.str "AMC")]⟩)] []
      (50, ⟨some 50, [("When", Cell.str "BMO")]⟩)).2
    (by decide) (by decide) (by decide) (by decide)

/-- Claim C6: every written output is sorted: ascending by the parsed
`next_earnings_date`; a row with no parsable date never precedes a dated
row (no-date rows sort last); and rows tied on the key (equal dates, or
both dateless) are in ascending case-sensitive ticker order. -/
theorem output_sorted (env : String → FetchResult) (now : Int) (c : InputCsv)
    (out : List EarningsRecord)
    (h : mainRun env now c = MainOutcome.wrote out) :
    out.Pairwise (fun a b =>
      (∀ x y, sortKey a = some x → sortKey b = some y →
        x < y ∨ (x = y ∧ a.ticker ≤ b.ticker)) ∧
      (sortKey a = none → sortKey b = none ∧ a.ticker ≤ b.ticker)) := by
  rw [mainRun] at h
  by_cases hc : (c.columns.lookup "ticker").isNone
  · rw [if_pos hc] at h
    exact absurd h (by simp)
  · rw [if_neg hc] at h
    have hout : out = sortOut (runBatch env now (tickersOf c)) := by
      injection h with h'
      exact h'.symm
    subst hout
    have hs := List.sorted_insertionSort (fun a b => outLE a b = true)
      (runBatch env now (tickersOf c))
    refine hs.imp (fun {a b} hab => ?_)
    constructor
    · intro x y hx hy
      simp only [outLE, hx, hy, Bool.or_eq_true, Bool.and_eq_true,
        decide_eq_true_eq] at hab
      exact hab
    · intro hxa
      cases hyb : sortKey b with
      | some y =>
        simp only [outLE, hxa, hyb] at hab
        exact absurd hab (by simp)
      | none =>
        simp only [outLE, hxa, hyb, decide_eq_true_eq] at hab
        exact ⟨rfl, hab⟩

/-- Claim C6, witness: a single-ticker run; its one-row output is
trivially in sorted order. -/
theorem output_sorted_witness :
    List.Pairwise (fun a b : EarningsRecord =>
      (∀ x y, sortKey a = some x → sortKey b = some y →
        x < y ∨ (x = y ∧ a.ticker ≤ b.ticker)) ∧
      (sortKey a = none → sortKey b = none ∧ a.ticker ≤ b.ticker))
      [{ ticker := "AAPL", next_earnings_date := none, when := none,
         source := providerSource, got_upcoming := false }] :=
  output_sorted (fun _ => FetchResult.ok none) 0
    ⟨[("ticker", [Cell.str "AAPL"])]⟩
    [{ ticker := "AAPL", next_earnings_date := none, when := none,
       source := providerSource, got_upcoming := false }] (by decide)
